import Mathlib

/-!
Verification of the 2-D spatial search toolkit of `src/libs/graph.rs` and the
day-16 priority search of `src/days/day16.rs` (adventofcode2024).

Embedding conventions: Rust `usize` is modelled as `Nat` (the repository never
approaches the overflow range, and all bounds logic is order-based), Rust
`Option` as `Option`, and a reachable `todo!()` or `expect` panic as the
`panic` constructor of `PanicOr`.  Stateful iterators are modelled by explicit
state passing; the traversal drivers take a fuel argument (`none` = fuel
exhausted, `some` = the run finished and returned the inner value).
-/

/-- Result of a Rust computation that can panic (`todo!()`, `expect`). -/
inductive PanicOr (α : Type u) where
  | panic : PanicOr α
  | ok : α → PanicOr α
deriving DecidableEq

/-- The full 8-way direction enum `PointDirection` of graph.rs. -/
inductive PointDirection where
  | Up | UpRight | UpLeft | Down | DownRight | DownLeft | Left | Right
deriving DecidableEq

/-- The `CardinalDirection` subenum of `PointDirection`. -/
inductive CardinalDirection where
  | Up | Down | Left | Right
deriving DecidableEq

/-- The `HorizontalDirection` subenum of `PointDirection`. -/
inductive HorizontalDirection where
  | Left | Right
deriving DecidableEq

/-- The `VerticalDirection` subenum of `PointDirection`. -/
inductive VerticalDirection where
  | Up | Down
deriving DecidableEq

/-- The `DiagnalDirection` subenum of `PointDirection` (spelling from the source). -/
inductive DiagnalDirection where
  | UpRight | UpLeft | DownRight | DownLeft
deriving DecidableEq

/-- The subenum widening `impl From<CardinalDirection> for PointDirection`. -/
def CardinalDirection.toPointDirection : CardinalDirection → PointDirection
  | .Up => .Up
  | .Down => .Down
  | .Left => .Left
  | .Right => .Right

/-- The subenum widening `impl From<DiagnalDirection> for PointDirection`. -/
def DiagnalDirection.toPointDirection : DiagnalDirection → PointDirection
  | .UpRight => .UpRight
  | .UpLeft => .UpLeft
  | .DownRight => .DownRight
  | .DownLeft => .DownLeft

/-- Mirrors `<PointDirection as Direction>::get_opposite` (graph.rs 382-393),
including the `DownLeft => DownRight` arm exactly as written there. -/
def PointDirection.get_opposite : PointDirection → PointDirection
  | .Up => .Down
  | .Down => .Up
  | .Left => .Right
  | .Right => .Left
  | .UpRight => .DownLeft
  | .UpLeft => .DownRight
  | .DownRight => .UpLeft
  | .DownLeft => .DownRight

/-- Mirrors `<PointDirection as Direction>::get_clockwise` (graph.rs 395-406). -/
def PointDirection.get_clockwise : PointDirection → PointDirection
  | .Up => .UpRight
  | .UpRight => .Right
  | .Right => .DownRight
  | .DownRight => .Down
  | .Down => .DownLeft
  | .DownLeft => .Left
  | .Left => .UpLeft
  | .UpLeft => .Up

/-- Mirrors `<PointDirection as Direction>::get_counter_clockwise` (graph.rs 408-419). -/
def PointDirection.get_counter_clockwise : PointDirection → PointDirection
  | .Up => .UpLeft
  | .UpLeft => .Left
  | .Left => .DownLeft
  | .DownLeft => .Down
  | .Down => .DownRight
  | .DownRight => .Right
  | .Right => .UpRight
  | .UpRight => .Up

/-- Mirrors `<DiagnalDirection as Direction>::get_opposite` (graph.rs 510-517). -/
def DiagnalDirection.get_opposite : DiagnalDirection → DiagnalDirection
  | .UpRight => .DownLeft
  | .UpLeft => .DownRight
  | .DownRight => .UpLeft
  | .DownLeft => .UpRight

/-- Mirrors `<CardinalDirection as Direction>::get_opposite` (graph.rs 445-452). -/
def CardinalDirection.get_opposite : CardinalDirection → CardinalDirection
  | .Up => .Down
  | .Down => .Up
  | .Left => .Right
  | .Right => .Left

/-- Mirrors `<CardinalDirection as Direction>::get_clockwise` (graph.rs 454-461). -/
def CardinalDirection.get_clockwise : CardinalDirection → CardinalDirection
  | .Up => .Right
  | .Down => .Left
  | .Left => .Up
  | .Right => .Down

/-- Mirrors `<CardinalDirection as Direction>::get_counter_clockwise` (graph.rs 463-470). -/
def CardinalDirection.get_counter_clockwise : CardinalDirection → CardinalDirection
  | .Up => .Left
  | .Down => .Right
  | .Left => .Down
  | .Right => .Up

/-- The `BoundedPoint` struct: a coordinate together with the grid's inclusive maxima. -/
structure BoundedPoint where
  x : Nat
  y : Nat
  max_x : Nat
  max_y : Nat
deriving DecidableEq

/-- Mirrors `<BoundedPoint as PlanarCoordinate>::get_adjacent` (graph.rs 208-295). -/
def BoundedPoint.get_adjacent (p : BoundedPoint) (d : PointDirection) : Option BoundedPoint :=
  match d with
  | .Up => if 0 < p.y then some { p with y := p.y - 1 } else none
  | .Down => if p.y < p.max_y then some { p with y := p.y + 1 } else none
  | .Left => if 0 < p.x then some { p with x := p.x - 1 } else none
  | .Right => if p.x < p.max_x then some { p with x := p.x + 1 } else none
  | .UpRight =>
      if 0 < p.y ∧ p.x < p.max_x then some { p with x := p.x + 1, y := p.y - 1 } else none
  | .UpLeft =>
      if 0 < p.y ∧ 0 < p.x then some { p with x := p.x - 1, y := p.y - 1 } else none
  | .DownRight =>
      if p.y < p.max_y ∧ p.x < p.max_x then some { p with x := p.x + 1, y := p.y + 1 } else none
  | .DownLeft =>
      if p.y < p.max_y ∧ 0 < p.x then some { p with x := p.x - 1, y := p.y + 1 } else none

/-- Mirrors `<BoundedPoint as PlanarCoordinate>::stride_to` (graph.rs 158-206).
The wildcard arm of the source is `todo!()`, i.e. a panic, for the four
diagonal directions. -/
def BoundedPoint.stride_to (p : BoundedPoint) (distance : Nat) (d : PointDirection) :
    PanicOr (Option BoundedPoint) :=
  match d with
  | .Up => .ok (if distance ≤ p.y then some { p with y := p.y - distance } else none)
  | .Down => .ok (if p.y + distance ≤ p.max_y then some { p with y := p.y + distance } else none)
  | .Left => .ok (if distance ≤ p.x then some { p with x := p.x - distance } else none)
  | .Right => .ok (if p.x + distance ≤ p.max_x then some { p with x := p.x + distance } else none)
  | _ => .panic

/-- Mirrors `<BoundedPoint as PlanarCoordinate>::jump_to` (graph.rs 109-156). -/
def BoundedPoint.jump_to (p : BoundedPoint) (horizontal_distance : Nat)
    (hd : HorizontalDirection) (vertical_distance : Nat) (vd : VerticalDirection) :
    Option BoundedPoint :=
  (match hd with
    | .Left =>
        if horizontal_distance ≤ p.x then some (p.x - horizontal_distance) else none
    | .Right =>
        if p.x + horizontal_distance ≤ p.max_x then some (p.x + horizontal_distance)
        else none).bind
    fun x =>
      match vd with
      | .Up =>
          if vertical_distance ≤ p.y then
            some { p with x := x, y := p.y - vertical_distance }
          else none
      | .Down =>
          if p.y + vertical_distance ≤ p.max_y then
            some { p with x := x, y := p.y + vertical_distance }
          else none

/-- Mirrors `BoundedPoint::get_adjacent_wrapping` (graph.rs 66-105). -/
def BoundedPoint.get_adjacent_wrapping (p : BoundedPoint) (d : PointDirection) : BoundedPoint :=
  match d with
  | .Up => { p with y := if 0 < p.y then p.y - 1 else p.max_y }
  | .Down => { p with y := if p.y < p.max_y then p.y + 1 else 0 }
  | .Left => { p with x := if 0 < p.x then p.x - 1 else p.max_x }
  | .Right => { p with x := if p.x < p.max_x then p.x + 1 else 0 }
  | .UpRight =>
      { p with x := if p.x < p.max_x then p.x + 1 else 0,
               y := if 0 < p.y then p.y - 1 else p.max_y }
  | .UpLeft =>
      { p with x := if 0 < p.x then p.x - 1 else p.max_x,
               y := if 0 < p.y then p.y - 1 else p.max_y }
  | .DownRight =>
      { p with x := if p.x < p.max_x then p.x + 1 else 0,
               y := if p.y < p.max_y then p.y + 1 else 0 }
  | .DownLeft =>
      { p with x := if 0 < p.x then p.x - 1 else p.max_x,
               y := if p.y < p.max_y then p.y + 1 else 0 }

/-- A bounded point whose coordinates respect its own recorded maxima. -/
def BoundedPoint.inRange (p : BoundedPoint) : Prop := p.x ≤ p.max_x ∧ p.y ≤ p.max_y

instance (p : BoundedPoint) : Decidable p.inRange := by
  unfold BoundedPoint.inRange; infer_instance

/-- Rust's `usize::checked_sub`: subtraction refusing to go below zero. -/
def checkedSub (a b : Nat) : Option Nat := if b ≤ a then some (a - b) else none

/-- Mirrors `<(usize, usize) as PlanarCoordinate>::get_adjacent` (graph.rs 871-885).
The pair is `(row, column)`, i.e. `.0`/`.fst` is `y` and `.1`/`.snd` is `x`. -/
def Pair.get_adjacent (p : Nat × Nat) (d : PointDirection) : Option (Nat × Nat) :=
  match d with
  | .Up => (checkedSub p.1 1).map fun r => (r, p.2)
  | .UpRight => (checkedSub p.1 1).map fun r => (r, p.2 + 1)
  | .UpLeft => (checkedSub p.1 1).bind fun y => (checkedSub p.2 1).map fun x => (y, x)
  | .Down => some (p.1 + 1, p.2)
  | .DownRight => some (p.1 + 1, p.2 + 1)
  | .DownLeft => (checkedSub p.2 1).map fun r => (p.1 + 1, r)
  | .Left => (checkedSub p.2 1).map fun r => (p.1, r)
  | .Right => some (p.1, p.2 + 1)

/-- Mirrors `<(usize, usize) as PlanarCoordinate>::stride_to` (graph.rs 849-869). -/
def Pair.stride_to (p : Nat × Nat) (distance : Nat) (d : PointDirection) : Option (Nat × Nat) :=
  match d with
  | .Up => (checkedSub p.1 distance).map fun r => (r, p.2)
  | .UpRight => (checkedSub p.1 distance).map fun r => (r, p.2 + distance)
  | .UpLeft =>
      (checkedSub p.1 distance).bind fun y => (checkedSub p.2 distance).map fun x => (y, x)
  | .Down => some (p.1 + distance, p.2)
  | .DownRight => some (p.1 + distance, p.2 + distance)
  | .DownLeft => (checkedSub p.2 distance).map fun r => (p.1 + distance, r)
  | .Left => (checkedSub p.2 distance).map fun r => (p.1, r)
  | .Right => some (p.1, p.2 + distance)

/-- The `DirectionIntoIterator` struct: a current point and a fixed direction. -/
structure DirectionIntoIterator (T : Type u) where
  point : T
  direction : PointDirection

/-- Mirrors `<DirectionIntoIterator<T> as Iterator>::next` (graph.rs 657-661):
the emitted item (if any) together with the iterator's state afterwards.  The
`get_adjacent` method of the coordinate type is passed explicitly. -/
def directionIterNext (adj : T → PointDirection → Option T)
    (it : DirectionIntoIterator T) : Option T × DirectionIntoIterator T :=
  match adj it.point it.direction with
  | some q => (some q, { it with point := q })
  | none => (none, it)

/-- Outcome of the `(n+1)`-st call of `next` on the direction iterator. -/
def directionIterAt (adj : T → PointDirection → Option T)
    (it : DirectionIntoIterator T) : Nat → Option T × DirectionIntoIterator T
  | 0 => directionIterNext adj it
  | n + 1 => directionIterAt adj (directionIterNext adj it).2 n

/-- The walk eventually stops: some call of `next` returns no item. -/
def iterSequenceTerminates (adj : T → PointDirection → Option T)
    (it : DirectionIntoIterator T) : Prop :=
  ∃ n, (directionIterAt adj it n).1 = none

/-- Number of in-bounds steps a bounded point can take in a direction; the
termination measure of the directional walk. -/
def dirMeasure (d : PointDirection) (p : BoundedPoint) : Nat :=
  match d with
  | .Up => p.y
  | .Down => p.max_y - p.y
  | .Left => p.x
  | .Right => p.max_x - p.x
  | .UpRight => min p.y (p.max_x - p.x)
  | .UpLeft => min p.y p.x
  | .DownRight => min (p.max_y - p.y) (p.max_x - p.x)
  | .DownLeft => min (p.max_y - p.y) p.x

/-- The `Visitor` trait (graph.rs 1144-1148): mark a key seen (returning
whether it was already seen) and query seenness.  State is passed explicitly. -/
structure Visitor (K : Type u) (S : Type v) where
  visit : S → K → Bool × S
  has_visited : S → K → Bool

/-- The `impl Visitor<T> for AHashSet<T>` backend (graph.rs 1282-1297), with the
hash set modelled as the list of its elements. -/
def hashSetVisitor [DecidableEq K] : Visitor K (List K) where
  visit s k := if k ∈ s then (true, s) else (false, k :: s)
  has_visited s k := decide (k ∈ s)

/-- The `impl Visitor<(T, U)> for AHashSet<T>` backend (graph.rs 1299-1314):
only the first component participates in identity. -/
def hashSetPairVisitor [DecidableEq K] : Visitor (K × U) (List K) where
  visit s k := if k.1 ∈ s then (true, s) else (false, k.1 :: s)
  has_visited s k := decide (k.1 ∈ s)

/-- A dense `ndarray::Array2<bool>` store, row-major. -/
structure Array2Bool where
  rows : Nat
  cols : Nat
  data : List Bool
deriving DecidableEq

/-- `Array2::from_elem((r, c), false)`: the fresh all-false store. -/
def Array2Bool.fromElemFalse (r c : Nat) : Array2Bool :=
  { rows := r, cols := c, data := List.replicate (r * c) false }

/-- The `has_visited` of `impl Visitor<(usize, usize)> for Array2<bool>`
(graph.rs 1202-1204): `get`, out-of-range yielding `false`. -/
def Array2Bool.has_visited (a : Array2Bool) (k : Nat × Nat) : Bool :=
  if k.1 < a.rows ∧ k.2 < a.cols then a.data.getD (k.1 * a.cols + k.2) false else false

/-- The `visit` of `impl Visitor<(usize, usize)> for Array2<bool>`
(graph.rs 1193-1200): `get_mut(..).expect("Exists")` panics for a key the
store was not sized for. -/
def Array2Bool.visit (a : Array2Bool) (k : Nat × Nat) : PanicOr (Bool × Array2Bool) :=
  if k.1 < a.rows ∧ k.2 < a.cols then
    if a.data.getD (k.1 * a.cols + k.2) false then .ok (true, a)
    else .ok (false, { a with data := a.data.set (k.1 * a.cols + k.2) true })
  else .panic

/-- One callback invocation performed by the BFS driver: `first_visit` on a
fresh dequeue, `on_repeat_visit` on a dequeue of an already-seen key, or
`on_insert parent child` right before `child` is enqueued. -/
inductive BfsEvent (T : Type u) where
  | firstVisit : T → BfsEvent T
  | repeatVisit : T → BfsEvent T
  | insert : T → T → BfsEvent T
deriving DecidableEq

/-- The lifecycle callbacks of `BreadthFirstSearchLifecycle` (graph.rs 910-934),
as pure functions; the defaults mirror `default_on_visit`.  The `on_insert`
side effect is recorded as `BfsEvent.insert` entries of the driver's trace. -/
structure BreadthFirstSearchLifecycle (T : Type u) (R : Type v) where
  on_repeat_visit : T → Option R := fun _ => none
  first_visit : T → Option R := fun _ => none
  get_adjacent : T → List T

/-- Mirrors `breadth_first_search` (graph.rs 1084-1142): pop the queue front;
`visit` it; on a repeat, call `on_repeat_visit` (returning its value if any,
else skipping); on a first visit, call `first_visit` (returning its value if
any), then enqueue the not-yet-visited neighbors at the back.  The returned
trace lists every callback invocation in order; fuel exhaustion is `none`. -/
def breadth_first_search (Vis : Visitor T S) (L : BreadthFirstSearchLifecycle T R) :
    Nat → List T → S → Option (Option R × List (BfsEvent T))
  | 0, _, _ => none
  | _ + 1, [], _ => some (none, [])
  | fuel + 1, value :: queue, s =>
    match Vis.visit s value with
    | (true, s') =>
      match L.on_repeat_visit value with
      | some r => some (some r, [.repeatVisit value])
      | none =>
        (breadth_first_search Vis L fuel queue s').map
          fun p => (p.1, .repeatVisit value :: p.2)
    | (false, s') =>
      match L.first_visit value with
      | some r => some (some r, [.firstVisit value])
      | none =>
        let adjacent := (L.get_adjacent value).filter fun a => !Vis.has_visited s' a
        (breadth_first_search Vis L fuel (queue ++ adjacent) s').map
          fun p => (p.1, .firstVisit value :: ((adjacent.map (BfsEvent.insert value)) ++ p.2))

/-- `PriorityQueue::get_priority` on the list model of the keyed queue. -/
def pqGetPriority [DecidableEq T] (q : List (T × Nat)) (k : T) : Option Nat :=
  (q.find? fun e => e.1 = k).map (·.2)

/-- `PriorityQueue::change_priority` on the list model. -/
def pqChangePriority [DecidableEq T] (q : List (T × Nat)) (k : T) (p : Nat) : List (T × Nat) :=
  q.map fun e => if e.1 = k then (k, p) else e

/-- `PriorityQueue::push` of a key known to be absent: append. -/
def pqPush (q : List (T × Nat)) (k : T) (p : Nat) : List (T × Nat) := q ++ [(k, p)]

/-- `PriorityQueue::pop` under `Reverse` priorities: remove the first entry of
minimal cost (the tie order of the hash-based queue is unspecified; the first
minimal entry is the representative choice). -/
def pqPopMin : List (T × Nat) → Option ((T × Nat) × List (T × Nat))
  | [] => none
  | e :: rest =>
    match pqPopMin rest with
    | none => some (e, [])
    | some (m, rest') => if e.2 ≤ m.2 then some (e, rest) else some (m, e :: rest')

/-- The body of the neighbor relaxation of `find_shortest_path_weight`
(day16.rs 231-247) for one generated move: leave the queue alone, decrease
the key's priority on a strictly better cost, or push an absent key at the
new cost. -/
def relaxOne [DecidableEq T] (d : Nat) (qq : List (T × Nat)) (m : T × Nat) :
    List (T × Nat) :=
  let newPriority := d + m.2
  match pqGetPriority qq m.1 with
  | some cur => if newPriority < cur then pqChangePriority qq m.1 newPriority else qq
  | none => pqPush qq m.1 newPriority

/-- The neighbor relaxation fold of `find_shortest_path_weight`
(day16.rs 225-248): `relaxOne` over each generated move in order. -/
def relaxNeighbors [DecidableEq T] (d : Nat) (q : List (T × Nat))
    (moves : List (T × Nat)) : List (T × Nat) :=
  moves.foldl (relaxOne d) q

/-- Mirrors the driver loop of `find_shortest_path_weight` (day16.rs 202-252),
generalized over the state type and the caller's move generator (day 16 uses
`get_valid_moves` over `(CardinalDirection, BoundedPoint)` states): pop the
cheapest state; if it is the goal, return its cost; if already visited, skip;
otherwise mark visited and relax each not-yet-visited move.  The returned
trace lists each expanded state with the cost at which it was expanded. -/
def dijkstraAux [DecidableEq T] (moves : T → List (T × Nat)) (isEnd : T → Bool) :
    Nat → List (T × Nat) → List T → Option (Option Nat × List (T × Nat))
  | 0, _, _ => none
  | fuel + 1, q, visited =>
    match pqPopMin q with
    | none => some (none, [])
    | some ((v, d), q') =>
      if isEnd v then some (some d, [])
      else if v ∈ visited then dijkstraAux moves isEnd fuel q' visited
      else
        let q'' := relaxNeighbors d q' ((moves v).filter fun m => !decide (m.1 ∈ v :: visited))
        (dijkstraAux moves isEnd fuel q'' (v :: visited)).map
          fun p => (p.1, (v, d) :: p.2)

/-- Predecessor recorded in day 16's `visited_path`: the (direction, point)
pair from which a state was reached. -/
abbrev Day16Pred := CardinalDirection × BoundedPoint

/-- `AHashSet::insert` on the list model: add the element if absent. -/
def hashSetInsert [DecidableEq α] (a : α) (s : List α) : List α :=
  if a ∈ s then s else a :: s

/-- The predecessor-set relaxation of `find_all_shortest_paths`
(day16.rs 144-154): strictly better cost resets the set to the new
predecessor and records the new best; a tie inserts the predecessor; a worse
cost changes nothing.  The `if` chain mirrors the source's
`new_priority.cmp(&path.1)` match on `Less`/`Equal`/`Greater`. -/
def day16RelaxEntry (path : List Day16Pred × Nat) (newPriority : Nat)
    (pred : Day16Pred) : List Day16Pred × Nat :=
  if newPriority < path.2 then ([pred], newPriority)
  else if newPriority = path.2 then (hashSetInsert pred path.1, path.2)
  else path

/-- The update of the `visited_path` map at one relaxation step of
`find_all_shortest_paths` (day16.rs 140-154); the `Array3` is modelled as a
total map from `(y, x, direction index)` keys. -/
def day16RelaxUpdate (visited_path : Nat × Nat × Nat → List Day16Pred × Nat)
    (key : Nat × Nat × Nat) (newPriority : Nat) (pred : Day16Pred) :
    Nat × Nat × Nat → List Day16Pred × Nat :=
  fun k => if k = key then day16RelaxEntry (visited_path key) newPriority pred
           else visited_path k

/-- C2: the involution claim fails on the code.  `PointDirection::get_opposite`
maps `DownLeft` to `DownRight` (graph.rs 391) instead of the 180-degree
rotation `UpRight`; the double application yields `UpLeft`, not `DownLeft`;
the result disagrees with four clockwise 45-degree steps; and it contradicts
the `DiagnalDirection` impl of the same trait method, which correctly maps
`DownLeft` to `UpRight`. -/
theorem pointDirection_get_opposite_downLeft_bug :
    PointDirection.get_opposite .DownLeft = .DownRight ∧
    PointDirection.get_opposite (PointDirection.get_opposite .DownLeft) ≠ .DownLeft ∧
    PointDirection.get_opposite .DownLeft ≠
      PointDirection.get_clockwise (PointDirection.get_clockwise
        (PointDirection.get_clockwise (PointDirection.get_clockwise .DownLeft))) ∧
    (DiagnalDirection.get_opposite .DownLeft).toPointDirection ≠
      PointDirection.get_opposite (DiagnalDirection.toPointDirection .DownLeft) := by
  decide

/-- C3 counterexample: `BoundedPoint::stride_to` with distance 0 in a diagonal
direction does not succeed with the unchanged point; it hits the `todo!()`
wildcard arm and panics. -/
theorem boundedPoint_stride_to_diagonal_panics :
    BoundedPoint.stride_to ⟨0, 0, 3, 3⟩ 0 .UpRight = .panic ∧
    BoundedPoint.stride_to ⟨0, 0, 3, 3⟩ 0 .UpRight ≠ .ok (some ⟨0, 0, 3, 3⟩) := by
  decide

/-- C3 amended: for the four cardinal directions `stride_to` is total and
returns exactly the displaced point when it stays within the declared grid and
no value when the move would leave it; on an in-range point, distance 0 is the
identity and always succeeds; for the four diagonal directions `stride_to`
panics (the `todo!()` arm); `jump_to` is total for every direction
combination, with the same bounds behavior and distance-0 identity. -/
theorem boundedPoint_stride_jump_amended (p : BoundedPoint) (distance hdist vdist : Nat)
    (hd : HorizontalDirection) (vd : VerticalDirection) :
    (∀ c : CardinalDirection, p.stride_to distance c.toPointDirection ≠ .panic) ∧
    (∀ q, p.stride_to distance .Up = .ok (some q) ↔
      q.y + distance = p.y ∧ q.x = p.x ∧ q.max_x = p.max_x ∧ q.max_y = p.max_y) ∧
    (p.stride_to distance .Up = .ok none ↔ p.y < distance) ∧
    (∀ q, p.stride_to distance .Down = .ok (some q) ↔
      q.y = p.y + distance ∧ q.y ≤ p.max_y ∧ q.x = p.x ∧
        q.max_x = p.max_x ∧ q.max_y = p.max_y) ∧
    (p.stride_to distance .Down = .ok none ↔ p.max_y < p.y + distance) ∧
    (∀ q, p.stride_to distance .Left = .ok (some q) ↔
      q.x + distance = p.x ∧ q.y = p.y ∧ q.max_x = p.max_x ∧ q.max_y = p.max_y) ∧
    (p.stride_to distance .Left = .ok none ↔ p.x < distance) ∧
    (∀ q, p.stride_to distance .Right = .ok (some q) ↔
      q.x = p.x + distance ∧ q.x ≤ p.max_x ∧ q.y = p.y ∧
        q.max_x = p.max_x ∧ q.max_y = p.max_y) ∧
    (p.stride_to distance .Right = .ok none ↔ p.max_x < p.x + distance) ∧
    (∀ dg : DiagnalDirection, p.stride_to distance dg.toPointDirection = .panic) ∧
    (p.inRange → ∀ c : CardinalDirection, p.stride_to 0 c.toPointDirection = .ok (some p)) ∧
    (p.inRange → p.jump_to 0 hd 0 vd = some p) ∧
    (∀ q, p.jump_to hdist hd vdist vd = some q ↔
      (match hd with
        | .Left => q.x + hdist = p.x
        | .Right => q.x = p.x + hdist ∧ q.x ≤ p.max_x) ∧
      (match vd with
        | .Up => q.y + vdist = p.y
        | .Down => q.y = p.y + vdist ∧ q.y ≤ p.max_y) ∧
      q.max_x = p.max_x ∧ q.max_y = p.max_y) ∧
    (p.jump_to hdist hd vdist vd = none ↔
      (match hd with | .Left => p.x < hdist | .Right => p.max_x < p.x + hdist) ∨
      (match vd with | .Up => p.y < vdist | .Down => p.max_y < p.y + vdist)) := by
  obtain ⟨px, py, pmx, pmy⟩ := p
  refine ⟨fun c => ?_, fun q => ?_, ?_, fun q => ?_, ?_, fun q => ?_, ?_, fun q => ?_, ?_,
    fun dg => ?_, fun hp c => ?_, fun hp => ?_, fun q => ?_, ?_⟩
  · cases c <;> simp [BoundedPoint.stride_to, CardinalDirection.toPointDirection]
  · obtain ⟨qx, qy, qmx, qmy⟩ := q
    simp [BoundedPoint.stride_to, BoundedPoint.mk.injEq] <;> omega
  · simp [BoundedPoint.stride_to] <;> omega
  · obtain ⟨qx, qy, qmx, qmy⟩ := q
    simp [BoundedPoint.stride_to, BoundedPoint.mk.injEq] <;> omega
  · simp [BoundedPoint.stride_to] <;> omega
  · obtain ⟨qx, qy, qmx, qmy⟩ := q
    simp [BoundedPoint.stride_to, BoundedPoint.mk.injEq] <;> omega
  · simp [BoundedPoint.stride_to] <;> omega
  · obtain ⟨qx, qy, qmx, qmy⟩ := q
    simp [BoundedPoint.stride_to, BoundedPoint.mk.injEq] <;> omega
  · simp [BoundedPoint.stride_to] <;> omega
  · cases dg <;> simp [BoundedPoint.stride_to, DiagnalDirection.toPointDirection]
  · simp only [BoundedPoint.inRange] at hp
    cases c <;>
      simp [BoundedPoint.stride_to, CardinalDirection.toPointDirection, hp.1, hp.2]
  · simp only [BoundedPoint.inRange] at hp
    cases hd <;> cases vd <;> simp [BoundedPoint.jump_to, hp.1, hp.2]
  · obtain ⟨qx, qy, qmx, qmy⟩ := q
    cases hd <;> cases vd <;>
      (simp only [BoundedPoint.jump_to]
       split_ifs <;> simp_all [BoundedPoint.mk.injEq] <;> omega)
  · cases hd <;> cases vd <;>
      (simp only [BoundedPoint.jump_to]
       split_ifs <;> simp_all <;> omega)

/-- C3 witness: on the in-range point (1,1) of a 4x4 grid, a cardinal
distance-0 stride succeeds with the point unchanged. -/
theorem boundedPoint_stride_jump_amended_witness :
    (⟨1, 1, 3, 3⟩ : BoundedPoint).inRange ∧
    BoundedPoint.stride_to ⟨1, 1, 3, 3⟩ 0 CardinalDirection.Up.toPointDirection =
      .ok (some ⟨1, 1, 3, 3⟩) :=
  ⟨by decide,
    (boundedPoint_stride_jump_amended ⟨1, 1, 3, 3⟩ 0 0 0 .Left .Up).2.2.2.2.2.2.2.2.2.2.1
      (by decide) .Up⟩

/-- C9: every point produced by `get_adjacent`, `stride_to`, `jump_to` or
`get_adjacent_wrapping` keeps the producing point's `max_x`/`max_y`, and its
coordinates stay within those maxima whenever the producing point's do; the
wrapping operation wraps each stepped coordinate modulo max+1. -/
theorem boundedPoint_ops_preserve_bounds (p : BoundedPoint) :
    (∀ d q, p.get_adjacent d = some q →
      q.max_x = p.max_x ∧ q.max_y = p.max_y ∧ (p.inRange → q.inRange)) ∧
    (∀ dist d q, p.stride_to dist d = .ok (some q) →
      q.max_x = p.max_x ∧ q.max_y = p.max_y ∧ (p.inRange → q.inRange)) ∧
    (∀ hdist hd vdist vd q, p.jump_to hdist hd vdist vd = some q →
      q.max_x = p.max_x ∧ q.max_y = p.max_y ∧ (p.inRange → q.inRange)) ∧
    (∀ d, (p.get_adjacent_wrapping d).max_x = p.max_x ∧
      (p.get_adjacent_wrapping d).max_y = p.max_y ∧
      (p.inRange → (p.get_adjacent_wrapping d).inRange)) ∧
    (p.inRange →
      (p.get_adjacent_wrapping .Down).y = (p.y + 1) % (p.max_y + 1) ∧
      (p.get_adjacent_wrapping .Up).y = (p.y + p.max_y) % (p.max_y + 1) ∧
      (p.get_adjacent_wrapping .Right).x = (p.x + 1) % (p.max_x + 1) ∧
      (p.get_adjacent_wrapping .Left).x = (p.x + p.max_x) % (p.max_x + 1)) := by
  obtain ⟨px, py, pmx, pmy⟩ := p
  refine ⟨fun d q h => ?_, fun dist d q h => ?_, fun hdist hd vdist vd q h => ?_,
    fun d => ?_, fun hp => ?_⟩
  · obtain ⟨qx, qy, qmx, qmy⟩ := q
    cases d <;> simp only [BoundedPoint.get_adjacent] at h <;> split_ifs at h <;>
      simp_all [BoundedPoint.mk.injEq, BoundedPoint.inRange] <;> omega
  · obtain ⟨qx, qy, qmx, qmy⟩ := q
    cases d <;> simp only [BoundedPoint.stride_to] at h <;> (try split_ifs at h) <;>
      simp_all [BoundedPoint.mk.injEq, BoundedPoint.inRange] <;> omega
  · obtain ⟨qx, qy, qmx, qmy⟩ := q
    cases hd <;> cases vd <;> simp only [BoundedPoint.jump_to] at h <;> split_ifs at h <;>
      simp_all [BoundedPoint.mk.injEq, BoundedPoint.inRange] <;> omega
  · cases d <;> simp [BoundedPoint.get_adjacent_wrapping, BoundedPoint.inRange] <;>
      split_ifs <;> omega
  · simp only [BoundedPoint.inRange] at hp
    refine ⟨?_, ?_, ?_, ?_⟩ <;> simp only [BoundedPoint.get_adjacent_wrapping]
    · split_ifs with h
      · exact (Nat.mod_eq_of_lt (by omega)).symm
      · have he : py = pmy := by omega
        subst he
        simp [Nat.mod_self]
    · split_ifs with h
      · have he : py + pmy = (py - 1) + (pmy + 1) := by omega
        rw [he, Nat.add_mod_right, Nat.mod_eq_of_lt (by omega)]
      · have he : py = 0 := by omega
        subst he
        simp
    · split_ifs with h
      · exact (Nat.mod_eq_of_lt (by omega)).symm
      · have he : px = pmx := by omega
        subst he
        simp [Nat.mod_self]
    · split_ifs with h
      · have he : px + pmx = (px - 1) + (pmx + 1) := by omega
        rw [he, Nat.add_mod_right, Nat.mod_eq_of_lt (by omega)]
      · have he : px = 0 := by omega
        subst he
        simp

/-- C9 witness: a concrete adjacent step on a 4x4 grid preserves the maxima
and stays in range. -/
theorem boundedPoint_ops_preserve_bounds_witness :
    BoundedPoint.get_adjacent ⟨1, 1, 3, 3⟩ .Down = some ⟨1, 2, 3, 3⟩ ∧
    ((⟨1, 2, 3, 3⟩ : BoundedPoint).max_x = (⟨1, 1, 3, 3⟩ : BoundedPoint).max_x ∧
      (⟨1, 2, 3, 3⟩ : BoundedPoint).max_y = (⟨1, 1, 3, 3⟩ : BoundedPoint).max_y ∧
      ((⟨1, 1, 3, 3⟩ : BoundedPoint).inRange → (⟨1, 2, 3, 3⟩ : BoundedPoint).inRange)) :=
  ⟨by decide, (boundedPoint_ops_preserve_bounds ⟨1, 1, 3, 3⟩).1 .Down ⟨1, 2, 3, 3⟩ (by decide)⟩

/-- C10: the raw `(row, column)` pair coordinate enforces only the lower bound
at 0: moves in `Down`, `Right` and `DownRight` always return a point (no upper
bound is applied), and a move returns no value exactly when a coordinate would
drop below 0. -/
theorem pair_ops_lower_bound_only (p : Nat × Nat) (distance : Nat) :
    (Pair.stride_to p distance .Down = some (p.1 + distance, p.2)) ∧
    (Pair.stride_to p distance .Right = some (p.1, p.2 + distance)) ∧
    (Pair.stride_to p distance .DownRight = some (p.1 + distance, p.2 + distance)) ∧
    (Pair.stride_to p distance .Up = none ↔ p.1 < distance) ∧
    (Pair.stride_to p distance .UpRight = none ↔ p.1 < distance) ∧
    (Pair.stride_to p distance .UpLeft = none ↔ p.1 < distance ∨ p.2 < distance) ∧
    (Pair.stride_to p distance .DownLeft = none ↔ p.2 < distance) ∧
    (Pair.stride_to p distance .Left = none ↔ p.2 < distance) ∧
    (Pair.get_adjacent p .Down = some (p.1 + 1, p.2)) ∧
    (Pair.get_adjacent p .Right = some (p.1, p.2 + 1)) ∧
    (Pair.get_adjacent p .DownRight = some (p.1 + 1, p.2 + 1)) ∧
    (Pair.get_adjacent p .Up = none ↔ p.1 = 0) ∧
    (Pair.get_adjacent p .UpRight = none ↔ p.1 = 0) ∧
    (Pair.get_adjacent p .UpLeft = none ↔ p.1 = 0 ∨ p.2 = 0) ∧
    (Pair.get_adjacent p .DownLeft = none ↔ p.2 = 0) ∧
    (Pair.get_adjacent p .Left = none ↔ p.2 = 0) := by
  obtain ⟨pr, pc⟩ := p
  refine ⟨?_, ?_, ?_, ?_, ?_, ?_, ?_, ?_, ?_, ?_, ?_, ?_, ?_, ?_, ?_, ?_⟩ <;>
    simp [Pair.stride_to, Pair.get_adjacent, checkedSub] <;> (try split_ifs) <;>
    (try simp_all) <;> omega

theorem directionIterAt_succ_eq_next (adj : T → PointDirection → Option T)
    (it : DirectionIntoIterator T) (n : Nat) :
    directionIterAt adj it (n + 1) = directionIterNext adj (directionIterAt adj it n).2 := by
  induction n generalizing it with
  | zero => rfl
  | succ m ih =>
    have h1 : directionIterAt adj it (m + 1 + 1) =
        directionIterAt adj (directionIterNext adj it).2 (m + 1) := rfl
    have h2 : directionIterAt adj it (m + 1) =
        directionIterAt adj (directionIterNext adj it).2 m := rfl
    rw [h1, h2, ih]

theorem directionIterNext_direction (adj : T → PointDirection → Option T)
    (it : DirectionIntoIterator T) :
    ((directionIterNext adj it).2).direction = it.direction := by
  simp only [directionIterNext]
  split <;> rfl

theorem directionIterAt_direction (adj : T → PointDirection → Option T)
    (it : DirectionIntoIterator T) (n : Nat) :
    ((directionIterAt adj it n).2).direction = it.direction := by
  induction n generalizing it with
  | zero => exact directionIterNext_direction adj it
  | succ m ih =>
    have h1 : directionIterAt adj it (m + 1) =
        directionIterAt adj (directionIterNext adj it).2 m := rfl
    rw [h1, ih, directionIterNext_direction]

theorem directionIterAt_point (adj : T → PointDirection → Option T)
    (it : DirectionIntoIterator T) (n : Nat) (q : T)
    (h : (directionIterAt adj it n).1 = some q) :
    (directionIterAt adj it n).2.point = q := by
  induction n generalizing it with
  | zero =>
    simp only [directionIterAt, directionIterNext] at h ⊢
    cases hh : adj it.point it.direction <;> simp_all
  | succ m ih => exact ih (directionIterNext adj it).2 h

theorem directionIterAt_none_adj (adj : T → PointDirection → Option T)
    (it : DirectionIntoIterator T) (n : Nat)
    (h : (directionIterAt adj it n).1 = none) :
    adj ((directionIterAt adj it n).2).point ((directionIterAt adj it n).2).direction = none := by
  induction n generalizing it with
  | zero =>
    simp only [directionIterAt, directionIterNext] at h ⊢
    cases hh : adj it.point it.direction <;> simp_all
  | succ m ih => exact ih (directionIterNext adj it).2 h

theorem boundedPoint_get_adjacent_none_iff (p : BoundedPoint) (d : PointDirection) :
    p.get_adjacent d = none ↔ dirMeasure d p = 0 := by
  obtain ⟨px, py, pmx, pmy⟩ := p
  cases d <;> simp [BoundedPoint.get_adjacent, dirMeasure] <;> omega

theorem boundedPoint_get_adjacent_measure_lt (p q : BoundedPoint) (d : PointDirection)
    (h : p.get_adjacent d = some q) : dirMeasure d q < dirMeasure d p := by
  obtain ⟨px, py, pmx, pmy⟩ := p
  cases d <;> simp only [BoundedPoint.get_adjacent] at h <;> split_ifs at h <;>
    simp only [Option.some.injEq] at h <;> subst h <;> simp [dirMeasure] <;> omega

theorem boundedWalk_none_of_measure_le (m : Nat) (p : BoundedPoint) (d : PointDirection)
    (h : dirMeasure d p ≤ m) :
    (directionIterAt BoundedPoint.get_adjacent ⟨p, d⟩ m).1 = none := by
  induction m generalizing p with
  | zero =>
    have hadj : p.get_adjacent d = none :=
      (boundedPoint_get_adjacent_none_iff p d).2 (Nat.le_zero.1 h)
    simp [directionIterAt, directionIterNext, hadj]
  | succ k ih =>
    have h1 : directionIterAt BoundedPoint.get_adjacent ⟨p, d⟩ (k + 1) =
        directionIterAt BoundedPoint.get_adjacent
          (directionIterNext BoundedPoint.get_adjacent ⟨p, d⟩).2 k := rfl
    rw [h1]
    cases hh : p.get_adjacent d with
    | none =>
      have hst : (directionIterNext BoundedPoint.get_adjacent ⟨p, d⟩).2 =
          (⟨p, d⟩ : DirectionIntoIterator BoundedPoint) := by
        simp [directionIterNext, hh]
      rw [hst]
      exact ih p (by
        have := (boundedPoint_get_adjacent_none_iff p d).1 hh
        omega)
    | some q =>
      have hst : (directionIterNext BoundedPoint.get_adjacent ⟨p, d⟩).2 =
          (⟨q, d⟩ : DirectionIntoIterator BoundedPoint) := by
        simp [directionIterNext, hh]
      rw [hst]
      exact ih q (by
        have := boundedPoint_get_adjacent_measure_lt p q d hh
        omega)

theorem pair_walk_down_value (n : Nat) : ∀ y x : Nat,
    (directionIterAt Pair.get_adjacent ⟨(y, x), .Down⟩ n).1 = some (y + n + 1, x) := by
  induction n with
  | zero =>
    intro y x
    simp [directionIterAt, directionIterNext, Pair.get_adjacent]
  | succ m ih =>
    intro y x
    have h1 : directionIterAt Pair.get_adjacent ⟨(y, x), .Down⟩ (m + 1) =
        directionIterAt Pair.get_adjacent
          (directionIterNext Pair.get_adjacent ⟨(y, x), .Down⟩).2 m := rfl
    have hst : (directionIterNext Pair.get_adjacent ⟨(y, x), .Down⟩).2 =
        (⟨(y + 1, x), .Down⟩ : DirectionIntoIterator (Nat × Nat)) := by
      simp [directionIterNext, Pair.get_adjacent]
    have he : y + 1 + m + 1 = y + (m + 1) + 1 := by omega
    rw [h1, hst, ih (y + 1) x, he]

/-- C8 counterexample: the raw index-pair coordinate implements the
planar-coordinate capability, yet its directional walk downward from (0, 0)
never terminates: no call of `next` ever returns no item, so the produced
sequence is not finite. -/
theorem pair_walk_down_infinite :
    ¬ iterSequenceTerminates Pair.get_adjacent ⟨(0, 0), PointDirection.Down⟩ := by
  intro h
  obtain ⟨n, hn⟩ := h
  rw [pair_walk_down_value n 0 0] at hn
  exact Option.noConfusion hn

/-- C8 amended: for every planar-coordinate implementation the directional
walk emits the chain of adjacent points, the item after an emitted point `q`
being exactly `get_adjacent q` in the iterator's direction, and it stays
finished once `get_adjacent` first fails; the walk of a *bounded* point always
terminates, within `dirMeasure` steps (for the raw index-pair type, walks with
a `Down` or `Right` component never fail, so only the bounded-point sequences
are finite in general). -/
theorem direction_iterator_walk_amended :
    (∀ (T : Type) (adj : T → PointDirection → Option T)
        (it : DirectionIntoIterator T) (n : Nat) (q : T),
      (directionIterAt adj it n).1 = some q →
      (directionIterAt adj it (n + 1)).1 = adj q it.direction) ∧
    (∀ (T : Type) (adj : T → PointDirection → Option T)
        (it : DirectionIntoIterator T) (n : Nat),
      (directionIterAt adj it n).1 = none → (directionIterAt adj it (n + 1)).1 = none) ∧
    (∀ (p : BoundedPoint) (d : PointDirection),
      (directionIterAt BoundedPoint.get_adjacent ⟨p, d⟩ (dirMeasure d p)).1 = none) := by
  refine ⟨fun T adj it n q h => ?_, fun T adj it n h => ?_, fun p d => ?_⟩
  · rw [directionIterAt_succ_eq_next]
    have hp := directionIterAt_point adj it n q h
    have hdir := directionIterAt_direction adj it n
    simp only [directionIterNext, hp, hdir]
    cases hh : adj q it.direction <;> simp [hh]
  · rw [directionIterAt_succ_eq_next]
    have hadj := directionIterAt_none_adj adj it n h
    simp only [directionIterNext, hadj]
  · exact boundedWalk_none_of_measure_le (dirMeasure d p) p d (Nat.le_refl _)

/-- C8 witness: on a 4x4 grid, walking up from (1,1) emits the adjacent point
(1,0) first, and the next item is exactly `get_adjacent` of (1,0) upward. -/
theorem direction_iterator_walk_amended_witness :
    (directionIterAt BoundedPoint.get_adjacent ⟨⟨1, 1, 3, 3⟩, .Up⟩ 0).1 =
      some ⟨1, 0, 3, 3⟩ ∧
    (directionIterAt BoundedPoint.get_adjacent ⟨⟨1, 1, 3, 3⟩, .Up⟩ 1).1 =
      BoundedPoint.get_adjacent ⟨1, 0, 3, 3⟩ .Up :=
  ⟨by decide,
    direction_iterator_walk_amended.1 BoundedPoint BoundedPoint.get_adjacent
      ⟨⟨1, 1, 3, 3⟩, .Up⟩ 0 ⟨1, 0, 3, 3⟩ (by decide)⟩

/-- C4 counterexample: the dense `Array2<bool>` visitor backend violates the
claim for an out-of-range key: on the fresh 1x1 store, `visit (5, 5)` panics
(`get_mut(..).expect("Exists")`) instead of returning false, although
`has_visited (5, 5)` is false before the call. -/
theorem array2Bool_visit_out_of_range_panics :
    Array2Bool.visit (Array2Bool.fromElemFalse 1 1) (5, 5) = .panic ∧
    Array2Bool.has_visited (Array2Bool.fromElemFalse 1 1) (5, 5) = false := by
  constructor
  · simp [Array2Bool.visit, Array2Bool.fromElemFalse]
  · simp [Array2Bool.has_visited, Array2Bool.fromElemFalse]

theorem rowMajorIndex_inj (y1 x1 y2 x2 c : Nat) (h1 : x1 < c) (h2 : x2 < c)
    (h : y1 * c + x1 = y2 * c + x2) : y1 = y2 ∧ x1 = x2 := by
  have hc : 0 < c := Nat.lt_of_le_of_lt (Nat.zero_le _) h1
  have h' : x1 + y1 * c = x2 + y2 * c := by omega
  have hdiv := congrArg (· / c) h'
  simp only [Nat.add_mul_div_right _ _ hc, Nat.div_eq_of_lt h1, Nat.div_eq_of_lt h2] at hdiv
  have hmod := congrArg (· % c) h'
  simp only [Nat.add_mul_mod_self_right, Nat.mod_eq_of_lt h1, Nat.mod_eq_of_lt h2] at hmod
  omega

theorem rowMajorIndex_lt (y x r c : Nat) (hy : y < r) (hx : x < c) : y * c + x < r * c := by
  have h1 : y * c + x < (y + 1) * c := by
    have he : (y + 1) * c = y * c + c := by ring
    omega
  exact Nat.lt_of_lt_of_le h1 (Nat.mul_le_mul_right c hy)

/-- C4 amended: the visitor contract holds for the hash-set backends at every
key (including the pair variant keyed on the first component), and for the
dense array backend at every key within the store's declared dimensions:
`has_visited` is false everywhere on a fresh store, `visit` returns whether
the key was already seen and marks it seen, seenness persists across later
visits, and the store never reports seen for a key that was not visited
(visit of a key a dense store was not sized for is a hard failure, per the
caller-contract-violation policy). -/
theorem visitor_contract_amended {K U : Type} [DecidableEq K] :
    (∀ k : K, hashSetVisitor.has_visited ([] : List K) k = false) ∧
    (∀ (s : List K) (k : K), (hashSetVisitor.visit s k).1 = hashSetVisitor.has_visited s k) ∧
    (∀ (s : List K) (k : K),
      hashSetVisitor.has_visited (hashSetVisitor.visit s k).2 k = true) ∧
    (∀ (s : List K) (k k' : K), hashSetVisitor.has_visited s k' = true →
      hashSetVisitor.has_visited (hashSetVisitor.visit s k).2 k' = true) ∧
    (∀ (s : List K) (k k' : K),
      hashSetVisitor.has_visited (hashSetVisitor.visit s k).2 k' = true →
      k' = k ∨ hashSetVisitor.has_visited s k' = true) ∧
    (∀ (s : List K) (k : K × U),
      (hashSetPairVisitor.visit s k).1 = hashSetPairVisitor.has_visited s k) ∧
    (∀ (s : List K) (k : K × U),
      hashSetPairVisitor.has_visited (hashSetPairVisitor.visit s k).2 k = true) ∧
    (∀ r c k, (Array2Bool.fromElemFalse r c).has_visited k = false) ∧
    (∀ (a : Array2Bool) (k : Nat × Nat), k.1 < a.rows → k.2 < a.cols →
      a.visit k ≠ .panic) ∧
    (∀ (a : Array2Bool) (k : Nat × Nat) (b : Bool) (a' : Array2Bool),
      a.data.length = a.rows * a.cols → k.1 < a.rows → k.2 < a.cols →
      a.visit k = .ok (b, a') →
      b = a.has_visited k ∧ a'.has_visited k = true ∧
        (∀ k', k' ≠ k → a'.has_visited k' = a.has_visited k') ∧
        a'.rows = a.rows ∧ a'.cols = a.cols) := by
  refine ⟨fun k => ?_, fun s k => ?_, fun s k => ?_, fun s k k' h => ?_, fun s k k' h => ?_,
    fun s k => ?_, fun s k => ?_, fun r c k => ?_, fun a k h1 h2 => ?_,
    fun a k b a' hlen h1 h2 h => ?_⟩
  · simp [hashSetVisitor]
  · simp only [hashSetVisitor]
    split_ifs <;> simp_all
  · simp only [hashSetVisitor]
    split_ifs <;> simp_all
  · simp only [hashSetVisitor] at h ⊢
    split_ifs <;> simp_all
  · simp only [hashSetVisitor] at h ⊢
    split_ifs at h <;> simp_all
  · simp only [hashSetPairVisitor]
    split_ifs <;> simp_all
  · simp only [hashSetPairVisitor]
    split_ifs <;> simp_all
  · simp only [Array2Bool.has_visited, Array2Bool.fromElemFalse]
    split_ifs with hin
    · simp only [List.getD_eq_getElem?_getD, List.getElem?_replicate]
      split_ifs <;> rfl
    · rfl
  · simp only [Array2Bool.visit]
    rw [if_pos ⟨h1, h2⟩]
    split_ifs <;> simp
  · obtain ⟨ky, kx⟩ := k
    simp only at h1 h2
    have hidx : ky * a.cols + kx < a.data.length := by
      rw [hlen]
      exact rowMajorIndex_lt ky kx a.rows a.cols h1 h2
    simp only [Array2Bool.visit] at h
    rw [if_pos ⟨h1, h2⟩] at h
    by_cases hseen : a.data.getD (ky * a.cols + kx) false = true
    · rw [if_pos hseen] at h
      simp only [PanicOr.ok.injEq, Prod.mk.injEq] at h
      obtain ⟨hb, ha'⟩ := h
      subst hb
      subst ha'
      refine ⟨?_, ?_, fun k' hk' => rfl, rfl, rfl⟩
      · simp only [Array2Bool.has_visited]
        rw [if_pos ⟨h1, h2⟩]
        exact hseen.symm
      · simp only [Array2Bool.has_visited]
        rw [if_pos ⟨h1, h2⟩]
        exact hseen
    · rw [if_neg hseen] at h
      simp only [PanicOr.ok.injEq, Prod.mk.injEq] at h
      obtain ⟨hb, ha'⟩ := h
      subst hb
      subst ha'
      refine ⟨?_, ?_, ?_, rfl, rfl⟩
      · simp only [Array2Bool.has_visited]
        rw [if_pos ⟨h1, h2⟩]
        simp_all
      · simp only [Array2Bool.has_visited]
        rw [if_pos ⟨h1, h2⟩]
        simp only [List.getD_eq_getElem?_getD, List.getElem?_set_self hidx, Option.getD_some]
      · intro k' hk'
        obtain ⟨ky', kx'⟩ := k'
        simp only [Array2Bool.has_visited]
        by_cases hin' : ky' < a.rows ∧ kx' < a.cols
        · rw [if_pos hin', if_pos hin']
          have hne : ky' * a.cols + kx' ≠ ky * a.cols + kx := by
            intro he
            obtain ⟨hey, hex⟩ :=
              rowMajorIndex_inj ky' kx' ky kx a.cols hin'.2 h2 he
            exact hk' (by simp [hey, hex])
          simp only [List.getD_eq_getElem?_getD, List.getElem?_set_ne (Ne.symm hne)]
        · rw [if_neg hin', if_neg hin']

/-- C4 witness: a first visit on a fresh hash store reports the key unseen,
and a dense visit of an in-range key does not panic. -/
theorem visitor_contract_amended_witness :
    ((hashSetVisitor.visit ([] : List Nat) 7).1 =
      hashSetVisitor.has_visited ([] : List Nat) 7) ∧
    Array2Bool.visit (Array2Bool.fromElemFalse 2 2) (0, 1) ≠ .panic :=
  ⟨(@visitor_contract_amended Nat Unit _).2.1 [] 7,
    (@visitor_contract_amended Nat Unit _).2.2.2.2.2.2.2.2.1
      (Array2Bool.fromElemFalse 2 2) (0, 1) (by decide) (by decide)⟩

theorem hashSetVisitor_visit_fst [DecidableEq K] (s : List K) (k : K) :
    (hashSetVisitor.visit s k).1 = hashSetVisitor.has_visited s k := by
  simp only [hashSetVisitor]
  split_ifs with h <;> simp [h]

theorem hashSetVisitor_visit_mark [DecidableEq K] (s : List K) (k k' : K) :
    hashSetVisitor.has_visited (hashSetVisitor.visit s k).2 k' =
      (hashSetVisitor.has_visited s k' || decide (k' = k)) := by
  simp only [hashSetVisitor]
  split_ifs with h
  · by_cases hk : k' = k
    · subst hk
      simp [h]
    · simp [hk]
  · by_cases hk : k' = k
    · subst hk
      simp
    · simp [hk, List.mem_cons]

theorem countP_firstVisit_insert_map {T : Type} [DecidableEq T] (k v : T) (l : List T) :
    List.countP (fun e => decide (e = BfsEvent.firstVisit k))
      (l.map (BfsEvent.insert v)) = 0 := by
  rw [List.countP_map]
  apply List.countP_eq_zero.2
  intro a _
  simp [Function.comp]

/-- C1: in every run of `breadth_first_search`, each key is expanded at most
once: the trace holds at most one `first_visit` call per key, and none for a
key the visitor had already marked when the run started; a dequeue of an
already-marked key invokes `on_repeat_visit` and, with the default hook, is
skipped and expands nothing while processing continues with the rest of the
FIFO queue; and each step processes exactly the queue front (the first trace
event of a run on `v :: q` concerns `v`).  The visitor hypotheses are the
`Visitor` trait contract. -/
theorem bfs_fifo_expand_once {T S R : Type} [DecidableEq T]
    (Vis : Visitor T S) (L : BreadthFirstSearchLifecycle T R)
    (hvfst : ∀ s k, (Vis.visit s k).1 = Vis.has_visited s k)
    (hvmark : ∀ s k k', Vis.has_visited (Vis.visit s k).2 k' =
      (Vis.has_visited s k' || decide (k' = k))) :
    (∀ fuel q s res tr, breadth_first_search Vis L fuel q s = some (res, tr) →
      ∀ k, (Vis.has_visited s k = true →
          List.countP (fun e => decide (e = BfsEvent.firstVisit k)) tr = 0) ∧
        List.countP (fun e => decide (e = BfsEvent.firstVisit k)) tr ≤ 1) ∧
    (∀ fuel v q s, Vis.has_visited s v = true → L.on_repeat_visit v = none →
      breadth_first_search Vis L (fuel + 1) (v :: q) s =
        (breadth_first_search Vis L fuel q (Vis.visit s v).2).map
          fun p => (p.1, BfsEvent.repeatVisit v :: p.2)) ∧
    (∀ fuel v q s res tr,
      breadth_first_search Vis L (fuel + 1) (v :: q) s = some (res, tr) →
      tr.head? = some (BfsEvent.firstVisit v) ∨
        tr.head? = some (BfsEvent.repeatVisit v)) := by
  refine ⟨?_, ?_, ?_⟩
  · intro fuel
    induction fuel with
    | zero =>
      intro q s res tr h
      simp [breadth_first_search] at h
    | succ f ih =>
      intro q s res tr h k
      cases q with
      | nil =>
        simp only [breadth_first_search, Option.some.injEq, Prod.mk.injEq] at h
        obtain ⟨-, htr⟩ := h
        subst htr
        simp
      | cons v rest =>
        rw [breadth_first_search] at h
        cases hv : Vis.visit s v with
        | mk b s' =>
          rw [hv] at h
          have hb := hvfst s v
          rw [hv] at hb
          have hm : ∀ k', Vis.has_visited s' k' =
              (Vis.has_visited s k' || decide (k' = v)) := by
            intro k'
            have := hvmark s v k'
            rw [hv] at this
            exact this
          cases b with
          | true =>
            cases hr : L.on_repeat_visit v with
            | some r =>
              rw [hr] at h
              simp only [Option.some.injEq, Prod.mk.injEq] at h
              obtain ⟨-, htr⟩ := h
              subst htr
              constructor
              · intro _
                simp [List.countP_cons]
              · simp [List.countP_cons]
            | none =>
              rw [hr, Option.map_eq_some'] at h
              obtain ⟨⟨res1, tr1⟩, hp, hpe⟩ := h
              simp only [Prod.mk.injEq] at hpe
              obtain ⟨-, htr⟩ := hpe
              subst htr
              have hIH := ih rest s' res1 tr1 hp k
              constructor
              · intro hks
                have hs' : Vis.has_visited s' k = true := by
                  rw [hm k, hks]
                  simp
                have h0 := hIH.1 hs'
                simp [List.countP_cons, h0]
              · have h1 := hIH.2
                simp only [List.countP_cons]
                simp
                omega
          | false =>
            cases hfv : L.first_visit v with
            | some r =>
              rw [hfv] at h
              simp only [Option.some.injEq, Prod.mk.injEq] at h
              obtain ⟨-, htr⟩ := h
              subst htr
              constructor
              · intro hks
                have hne : ¬(v = k) := by
                  intro he
                  rw [he, hks] at hb
                  exact Bool.noConfusion hb
                simp [List.countP_cons, hne]
              · rw [List.countP_cons]
                simp only [List.countP_nil]
                split <;> omega
            | none =>
              rw [hfv, Option.map_eq_some'] at h
              obtain ⟨⟨res1, tr1⟩, hp, hpe⟩ := h
              simp only [Prod.mk.injEq] at hpe
              obtain ⟨-, htr⟩ := hpe
              subst htr
              have hIH := ih _ s' res1 tr1 hp k
              by_cases hkv : k = v
              · subst hkv
                have hs' : Vis.has_visited s' k = true := by
                  rw [hm k]
                  simp
                have h0 := hIH.1 hs'
                constructor
                · intro hks
                  rw [hks] at hb
                  exact Bool.noConfusion hb
                · simp [List.countP_cons, List.countP_append,
                    countP_firstVisit_insert_map, h0]
              · have hs' : Vis.has_visited s' k = Vis.has_visited s k := by
                  rw [hm k]
                  simp [hkv]
                constructor
                · intro hks
                  have h0 := hIH.1 (hs'.trans hks)
                  have hne : ¬(v = k) := fun he => hkv he.symm
                  simp [List.countP_cons, List.countP_append,
                    countP_firstVisit_insert_map, h0, hne]
                · have h1 := hIH.2
                  have hne : ¬(v = k) := fun he => hkv he.symm
                  rw [List.countP_cons, List.countP_append, countP_firstVisit_insert_map]
                  simp [hne]
                  omega
  · intro fuel v q s hseen hdef
    cases hv : Vis.visit s v with
    | mk b s' =>
      have hb := hvfst s v
      rw [hv, hseen] at hb
      subst hb
      simp only [breadth_first_search, hv, hdef]
  · intro fuel v q s res tr h
    rw [breadth_first_search] at h
    cases hv : Vis.visit s v with
    | mk b s' =>
      rw [hv] at h
      cases b with
      | true =>
        cases hr : L.on_repeat_visit v with
        | some r =>
          rw [hr] at h
          simp only [Option.some.injEq, Prod.mk.injEq] at h
          obtain ⟨-, htr⟩ := h
          subst htr
          right
          rfl
        | none =>
          rw [hr, Option.map_eq_some'] at h
          obtain ⟨⟨res1, tr1⟩, -, hpe⟩ := h
          simp only [Prod.mk.injEq] at hpe
          obtain ⟨-, htr⟩ := hpe
          subst htr
          right
          rfl
      | false =>
        cases hfv : L.first_visit v with
        | some r =>
          rw [hfv] at h
          simp only [Option.some.injEq, Prod.mk.injEq] at h
          obtain ⟨-, htr⟩ := h
          subst htr
          left
          rfl
        | none =>
          rw [hfv, Option.map_eq_some'] at h
          obtain ⟨⟨res1, tr1⟩, -, hpe⟩ := h
          simp only [Prod.mk.injEq] at hpe
          obtain ⟨-, htr⟩ := hpe
          subst htr
          left
          rfl

/-- A small concrete lifecycle used by the witnesses: state 0 has the
duplicate neighbor list [1, 1], everything else has none. -/
def bfsWitnessLifecycle : BreadthFirstSearchLifecycle Nat Nat :=
  { get_adjacent := fun n => if n = 0 then [1, 1] else [] }

/-- C1 witness: a concrete run with a duplicate enqueue; state 1 is expanded
exactly once and its second dequeue is a repeat visit. -/
theorem bfs_fifo_expand_once_witness :
    breadth_first_search hashSetVisitor bfsWitnessLifecycle 10 [0] [] =
      some (none, [BfsEvent.firstVisit 0, BfsEvent.insert 0 1, BfsEvent.insert 0 1,
        BfsEvent.firstVisit 1, BfsEvent.repeatVisit 1]) ∧
    List.countP (fun e => decide (e = BfsEvent.firstVisit 1))
      [BfsEvent.firstVisit 0, BfsEvent.insert 0 1, BfsEvent.insert 0 1,
        BfsEvent.firstVisit 1, BfsEvent.repeatVisit 1] ≤ 1 :=
  ⟨by decide,
    ((bfs_fifo_expand_once hashSetVisitor bfsWitnessLifecycle
        (fun s k => hashSetVisitor_visit_fst s k)
        (fun s k k' => hashSetVisitor_visit_mark s k k')).1
      10 [0] [] none _ (by decide) 1).2⟩

theorem getLast?_cons_of_ne_nil {α : Type u} (a : α) (l : List α) (h : l ≠ []) :
    (a :: l).getLast? = l.getLast? := by
  cases l with
  | nil => exact absurd rfl h
  | cons b m => exact List.getLast?_cons_cons

/-- C7: a finished run of `breadth_first_search` returns an absent result
exactly when the queue emptied with every `first_visit` and `on_repeat_visit`
invocation of the run returning no value, and whenever a callback returns a
value the search terminates immediately with it: that invocation is the last
event of the trace and its value is the result. -/
theorem bfs_none_iff_queue_exhausted {T S R : Type}
    (Vis : Visitor T S) (L : BreadthFirstSearchLifecycle T R) :
    ∀ fuel q s res tr, breadth_first_search Vis L fuel q s = some (res, tr) →
      ((res = none ↔ ∀ v, (BfsEvent.firstVisit v ∈ tr → L.first_visit v = none) ∧
          (BfsEvent.repeatVisit v ∈ tr → L.on_repeat_visit v = none)) ∧
        (∀ r, res = some r →
          (∃ v, tr.getLast? = some (BfsEvent.firstVisit v) ∧ L.first_visit v = some r) ∨
          (∃ v, tr.getLast? = some (BfsEvent.repeatVisit v) ∧
            L.on_repeat_visit v = some r))) := by
  intro fuel
  induction fuel with
  | zero =>
    intro q s res tr h
    simp [breadth_first_search] at h
  | succ f ih =>
    intro q s res tr h
    cases q with
    | nil =>
      simp only [breadth_first_search, Option.some.injEq, Prod.mk.injEq] at h
      obtain ⟨hres, htr⟩ := h
      subst hres
      subst htr
      exact ⟨by simp, fun r hr => Option.noConfusion hr⟩
    | cons v rest =>
      rw [breadth_first_search] at h
      cases hv : Vis.visit s v with
      | mk b s' =>
        rw [hv] at h
        cases b with
        | true =>
          cases hr : L.on_repeat_visit v with
          | some r0 =>
            rw [hr] at h
            simp only [Option.some.injEq, Prod.mk.injEq] at h
            obtain ⟨hres, htr⟩ := h
            subst hres
            subst htr
            constructor
            · constructor
              · intro hno
                exact Option.noConfusion hno
              · intro hall
                have hn := (hall v).2 (by simp)
                rw [hn] at hr
                exact Option.noConfusion hr
            · intro r hrr
              rw [Option.some.injEq] at hrr
              subst hrr
              right
              exact ⟨v, by simp, hr⟩
          | none =>
            rw [hr, Option.map_eq_some'] at h
            obtain ⟨⟨res1, tr1⟩, hp, hpe⟩ := h
            simp only [Prod.mk.injEq] at hpe
            obtain ⟨hres, htr⟩ := hpe
            subst hres
            subst htr
            obtain ⟨hiff, hsome⟩ := ih rest s' res1 tr1 hp
            constructor
            · constructor
              · intro hres0 v'
                have hh := (hiff.1 hres0) v'
                constructor
                · intro hmem
                  rcases List.mem_cons.1 hmem with he | hm
                  · exact BfsEvent.noConfusion he
                  · exact hh.1 hm
                · intro hmem
                  rcases List.mem_cons.1 hmem with he | hm
                  · injection he with he'
                    subst he'
                    exact hr
                  · exact hh.2 hm
              · intro hall
                apply hiff.2
                intro v'
                exact ⟨fun hm => (hall v').1 (List.mem_cons_of_mem _ hm),
                  fun hm => (hall v').2 (List.mem_cons_of_mem _ hm)⟩
            · intro r hrr
              have hres' := hsome r hrr
              have htrne : tr1 ≠ [] := by
                rcases hres' with ⟨v', hl, -⟩ | ⟨v', hl, -⟩ <;>
                  (intro hnil; rw [hnil] at hl; exact Option.noConfusion hl)
              rw [getLast?_cons_of_ne_nil _ _ htrne]
              exact hres'
        | false =>
          cases hfv : L.first_visit v with
          | some r0 =>
            rw [hfv] at h
            simp only [Option.some.injEq, Prod.mk.injEq] at h
            obtain ⟨hres, htr⟩ := h
            subst hres
            subst htr
            constructor
            · constructor
              · intro hno
                exact Option.noConfusion hno
              · intro hall
                have hn := (hall v).1 (by simp)
                rw [hn] at hfv
                exact Option.noConfusion hfv
            · intro r hrr
              rw [Option.some.injEq] at hrr
              subst hrr
              left
              exact ⟨v, by simp, hfv⟩
          | none =>
            rw [hfv, Option.map_eq_some'] at h
            obtain ⟨⟨res1, tr1⟩, hp, hpe⟩ := h
            simp only [Prod.mk.injEq] at hpe
            obtain ⟨hres, htr⟩ := hpe
            subst hres
            subst htr
            obtain ⟨hiff, hsome⟩ := ih _ s' res1 tr1 hp
            constructor
            · constructor
              · intro hres0 v'
                have hh := (hiff.1 hres0) v'
                constructor
                · intro hmem
                  rcases List.mem_cons.1 hmem with he | hm
                  · injection he with he'
                    subst he'
                    exact hfv
                  · rcases List.mem_append.1 hm with hm1 | hm2
                    · exact absurd hm1 (by simp)
                    · exact hh.1 hm2
                · intro hmem
                  rcases List.mem_cons.1 hmem with he | hm
                  · exact BfsEvent.noConfusion he
                  · rcases List.mem_append.1 hm with hm1 | hm2
                    · exact absurd hm1 (by simp)
                    · exact hh.2 hm2
              · intro hall
                apply hiff.2
                intro v'
                refine ⟨fun hm => (hall v').1 ?_, fun hm => (hall v').2 ?_⟩
                · exact List.mem_cons_of_mem _ (List.mem_append.2 (Or.inr hm))
                · exact List.mem_cons_of_mem _ (List.mem_append.2 (Or.inr hm))
            · intro r hrr
              have hres' := hsome r hrr
              have htrne : tr1 ≠ [] := by
                rcases hres' with ⟨v', hl, -⟩ | ⟨v', hl, -⟩ <;>
                  (intro hnil; rw [hnil] at hl; exact Option.noConfusion hl)
              have happ : ((List.filter (fun a => !Vis.has_visited s' a)
                  (L.get_adjacent v)).map (BfsEvent.insert v)) ++ tr1 ≠ [] := by
                intro hnil
                exact htrne (List.append_eq_nil.1 hnil).2
              rw [getLast?_cons_of_ne_nil _ _ happ,
                List.getLast?_append_of_ne_nil _ htrne]
              exact hres'

/-- C7 witness: a concrete full exploration returns the absent result, and the
theorem recovers that every `first_visit` invocation of the run returned no
value. -/
theorem bfs_none_iff_queue_exhausted_witness :
    breadth_first_search hashSetVisitor bfsWitnessLifecycle 10 [0] [] =
      some (none, [BfsEvent.firstVisit 0, BfsEvent.insert 0 1, BfsEvent.insert 0 1,
        BfsEvent.firstVisit 1, BfsEvent.repeatVisit 1]) ∧
    bfsWitnessLifecycle.first_visit 1 = none :=
  ⟨by decide,
    ((bfs_none_iff_queue_exhausted hashSetVisitor bfsWitnessLifecycle 10 [0] [] none
        [BfsEvent.firstVisit 0, BfsEvent.insert 0 1, BfsEvent.insert 0 1,
          BfsEvent.firstVisit 1, BfsEvent.repeatVisit 1]
        (by decide)).1.1 rfl 1).1 (by decide)⟩

/-- C5: one relaxation step of the predecessor map of
`find_all_shortest_paths`: a strictly better cost resets the entry's set to
exactly the new predecessor and records the new best; a cost tying the
recorded best adds the predecessor to the existing set and keeps the best; a
worse cost changes nothing; and no other entry of the map is touched. -/
theorem day16_predecessor_relax (visited_path : Nat × Nat × Nat → List Day16Pred × Nat)
    (key : Nat × Nat × Nat) (newPriority : Nat) (pred : Day16Pred) :
    (newPriority < (visited_path key).2 →
      day16RelaxUpdate visited_path key newPriority pred key = ([pred], newPriority)) ∧
    (newPriority = (visited_path key).2 →
      day16RelaxUpdate visited_path key newPriority pred key =
        (hashSetInsert pred (visited_path key).1, (visited_path key).2)) ∧
    ((visited_path key).2 < newPriority →
      day16RelaxUpdate visited_path key newPriority pred key = visited_path key) ∧
    (∀ k, k ≠ key →
      day16RelaxUpdate visited_path key newPriority pred k = visited_path k) := by
  refine ⟨fun h => ?_, fun h => ?_, fun h => ?_, fun k hk => ?_⟩
  · simp [day16RelaxUpdate, day16RelaxEntry, h]
  · simp [day16RelaxUpdate, day16RelaxEntry, h]
  · have h1 : ¬(newPriority < (visited_path key).2) := by omega
    have h2 : ¬(newPriority = (visited_path key).2) := by omega
    simp [day16RelaxUpdate, day16RelaxEntry, h1, h2]
  · simp [day16RelaxUpdate, hk]

/-- C5 witness: a strictly better cost at a concrete entry resets the set to
the single new predecessor and updates the best cost. -/
theorem day16_predecessor_relax_witness :
    5 < ((fun _ : Nat × Nat × Nat => (([] : List Day16Pred), 10)) (0, 0, 0)).2 ∧
    day16RelaxUpdate (fun _ => ([], 10)) (0, 0, 0) 5
      (CardinalDirection.Up, ⟨0, 0, 3, 3⟩) (0, 0, 0) =
      ([(CardinalDirection.Up, ⟨0, 0, 3, 3⟩)], 5) :=
  ⟨by decide,
    (day16_predecessor_relax (fun _ => ([], 10)) (0, 0, 0) 5
      (CardinalDirection.Up, ⟨0, 0, 3, 3⟩)).1 (by decide)⟩

/-- Keys currently present in the list model of the keyed priority queue. -/
def pqKeys (q : List (T × Nat)) : List T := q.map Prod.fst

/-- Keep the first entry per key, dropping entries whose key is in `ks` or was
already kept; relates the BFS queue (which may hold duplicates and stale
entries) to the keyed priority queue. -/
def dedupFstEx [DecidableEq T] (ks : List T) : List (T × Nat) → List (T × Nat)
  | [] => []
  | e :: rest =>
    if e.1 ∈ ks then dedupFstEx ks rest else e :: dedupFstEx (e.1 :: ks) rest

/-- The expanded states of a BFS trace: the arguments of its `first_visit`
events, in order. -/
def bfsExpansions {T : Type u} : List (BfsEvent T) → List T :=
  List.filterMap fun e =>
    match e with
    | BfsEvent.firstVisit v => some v
    | _ => none

/-- Edge generator charging cost 1 for every move (uniform cost, no turn
penalty). -/
def unitMoves (adj : T → List T) : T → List (T × Nat) :=
  fun v => (adj v).map fun u => (u, 1)

/-- BFS over distance-annotated states: neighbors of `(v, d)` are the adjacent
states at distance `d + 1`; no early termination hooks. -/
def bfsDistLifecycle (adj : T → List T) : BreadthFirstSearchLifecycle (T × Nat) Unit :=
  { get_adjacent := fun vd => (adj vd.1).map fun u => (u, vd.2 + 1) }

theorem pqPopMin_of_sorted {T : Type u} : ∀ (e : T × Nat) (rest : List (T × Nat)),
    List.Sorted (· ≤ ·) ((e :: rest).map Prod.snd) →
    pqPopMin (e :: rest) = some (e, rest) := by
  intro e rest
  induction rest generalizing e with
  | nil => intro _; rfl
  | cons f rest2 ih =>
    intro hs
    have hs' := (List.sorted_cons.1 hs)
    have hef : e.2 ≤ f.2 := hs'.1 f.2 (by simp)
    have h2 := ih f hs'.2
    rw [pqPopMin, h2]
    simp [hef]

theorem dijkstraAux_mono [DecidableEq T] (moves : T → List (T × Nat)) (isEnd : T → Bool) :
    ∀ (fuel : Nat) (q : List (T × Nat)) (vis : List T) out,
      dijkstraAux moves isEnd fuel q vis = some out →
      dijkstraAux moves isEnd (fuel + 1) q vis = some out := by
  intro fuel
  induction fuel with
  | zero =>
    intro q vis out h
    simp [dijkstraAux] at h
  | succ f ih =>
    intro q vis out h
    rw [dijkstraAux] at h
    rw [dijkstraAux]
    cases hpop : pqPopMin q with
    | none =>
      simp only [hpop] at h
      simp only [hpop]
      exact h
    | some p =>
      obtain ⟨⟨v, d⟩, q'⟩ := p
      simp only [hpop] at h ⊢
      by_cases hend : isEnd v
      · rw [if_pos hend] at h ⊢
        exact h
      · rw [if_neg hend] at h ⊢
        by_cases hvis : v ∈ vis
        · rw [if_pos hvis] at h ⊢
          exact ih q' vis out h
        · rw [if_neg hvis] at h ⊢
          rw [Option.map_eq_some'] at h
          obtain ⟨p1, hp1, hpe⟩ := h
          rw [Option.map_eq_some']
          exact ⟨p1, ih _ _ _ hp1, hpe⟩

theorem pqGetPriority_none_iff [DecidableEq T] (q : List (T × Nat)) (k : T) :
    pqGetPriority q k = none ↔ k ∉ pqKeys q := by
  simp only [pqGetPriority, Option.map_eq_none', List.find?_eq_none, pqKeys, List.mem_map]
  constructor
  · rintro h ⟨e, he, hk⟩
    exact absurd (by simp [hk]) (h e he)
  · intro h e he
    simp only [decide_eq_true_eq]
    intro hk
    exact h ⟨e, he, hk⟩

theorem pqGetPriority_some_bound [DecidableEq T] (q : List (T × Nat)) (k : T) (cur B : Nat)
    (hall : ∀ e ∈ q, e.2 ≤ B) (h : pqGetPriority q k = some cur) : cur ≤ B := by
  simp only [pqGetPriority, Option.map_eq_some'] at h
  obtain ⟨e, he, hcur⟩ := h
  subst hcur
  exact hall e (List.mem_of_find?_eq_some he)

theorem dedupFstEx_congr [DecidableEq T] : ∀ (l : List (T × Nat)) (ks1 ks2 : List T),
    (∀ e ∈ l, (e.1 ∈ ks1 ↔ e.1 ∈ ks2)) → dedupFstEx ks1 l = dedupFstEx ks2 l := by
  intro l
  induction l with
  | nil => intro ks1 ks2 _; rfl
  | cons e rest ih =>
    intro ks1 ks2 hequiv
    have he := hequiv e (by simp)
    by_cases h1 : e.1 ∈ ks1
    · rw [dedupFstEx, dedupFstEx, if_pos h1, if_pos (he.1 h1)]
      exact ih ks1 ks2 fun e' he' => hequiv e' (List.mem_cons_of_mem _ he')
    · have h2 : e.1 ∉ ks2 := fun hc => h1 (he.2 hc)
      rw [dedupFstEx, dedupFstEx, if_neg h1, if_neg h2]
      congr 1
      apply ih
      intro e' he'
      have := hequiv e' (List.mem_cons_of_mem _ he')
      simp only [List.mem_cons, this]

theorem pqKeys_dedupFstEx_mem [DecidableEq T] : ∀ (l : List (T × Nat)) (ks : List T) (a : T),
    a ∈ pqKeys (dedupFstEx ks l) ↔ (a ∉ ks ∧ a ∈ pqKeys l) := by
  intro l
  induction l with
  | nil => intro ks a; simp [dedupFstEx, pqKeys]
  | cons e rest ih =>
    intro ks a
    by_cases h1 : e.1 ∈ ks
    · rw [dedupFstEx, if_pos h1, ih]
      simp only [pqKeys, List.map_cons, List.mem_cons]
      constructor
      · rintro ⟨hnk, hm⟩
        exact ⟨hnk, Or.inr hm⟩
      · rintro ⟨hnk, he | hm⟩
        · exact absurd (he ▸ h1) hnk
        · exact ⟨hnk, hm⟩
    · rw [dedupFstEx, if_neg h1]
      simp only [pqKeys, List.map_cons, List.mem_cons] at ih ⊢
      rw [ih]
      simp only [List.mem_cons]
      constructor
      · rintro (he | ⟨hnk, hm⟩)
        · subst he
          exact ⟨h1, Or.inl rfl⟩
        · exact ⟨fun hc => hnk (Or.inr hc), Or.inr hm⟩
      · rintro ⟨hnk, he | hm⟩
        · exact Or.inl he
        · by_cases hae : a = e.1
          · exact Or.inl hae
          · exact Or.inr ⟨fun hc => hnk (hc.resolve_left hae), hm⟩

theorem dedupFstEx_sublist [DecidableEq T] : ∀ (l : List (T × Nat)) (ks : List T),
    (dedupFstEx ks l).Sublist l := by
  intro l
  induction l with
  | nil => intro ks; exact List.Sublist.refl _
  | cons e rest ih =>
    intro ks
    rw [dedupFstEx]
    split_ifs with h
    · exact (ih ks).cons e
    · exact (ih (e.1 :: ks)).cons₂ e

theorem dedupFstEx_append [DecidableEq T] : ∀ (A B : List (T × Nat)) (ks : List T),
    dedupFstEx ks (A ++ B) =
      dedupFstEx ks A ++ dedupFstEx (pqKeys (dedupFstEx ks A) ++ ks) B := by
  intro A
  induction A with
  | nil =>
    intro B ks
    simp [dedupFstEx, pqKeys]
  | cons e A' ih =>
    intro B ks
    by_cases h : e.1 ∈ ks
    · rw [List.cons_append, dedupFstEx, if_pos h, dedupFstEx, if_pos h, ih]
    · rw [List.cons_append, dedupFstEx, if_neg h, dedupFstEx, if_neg h, ih,
        List.cons_append]
      congr 1
      congr 1
      apply dedupFstEx_congr
      intro x _
      simp only [pqKeys, List.map_cons, List.mem_append, List.mem_cons]
      tauto

theorem relaxOne_present [DecidableEq T] (d : Nat) (q : List (T × Nat)) (u : T) (cur : Nat)
    (hq : pqGetPriority q u = some cur) (hnlt : ¬(d + 1 < cur)) :
    relaxOne d q (u, 1) = q := by
  simp [relaxOne, hq, hnlt]

theorem relaxOne_absent [DecidableEq T] (d : Nat) (q : List (T × Nat)) (u : T)
    (hq : pqGetPriority q u = none) :
    relaxOne d q (u, 1) = q ++ [(u, d + 1)] := by
  simp [relaxOne, hq, pqPush]

theorem relaxNeighbors_unit [DecidableEq T] (d : Nat) :
    ∀ (nodes : List T) (q : List (T × Nat)),
      (∀ e ∈ q, e.2 ≤ d + 1) →
      relaxNeighbors d q (nodes.map fun u => (u, 1)) =
        q ++ dedupFstEx (pqKeys q) (nodes.map fun u => (u, d + 1)) := by
  intro nodes
  induction nodes with
  | nil =>
    intro q _
    simp [relaxNeighbors, dedupFstEx]
  | cons u us ih =>
    intro q hall
    have hstep : relaxNeighbors d q ((u :: us).map fun x => (x, 1)) =
        relaxNeighbors d (relaxOne d q (u, 1)) (us.map fun x => (x, 1)) := rfl
    rw [hstep, List.map_cons, dedupFstEx]
    cases hq : pqGetPriority q u with
    | some cur =>
      have hcur : cur ≤ d + 1 := pqGetPriority_some_bound q u cur (d + 1) hall hq
      have hu : u ∈ pqKeys q := by
        by_contra hc
        rw [(pqGetPriority_none_iff q u).2 hc] at hq
        exact Option.noConfusion hq
      rw [relaxOne_present d q u cur hq (by omega), if_pos hu]
      exact ih q hall
    | none =>
      have hu : u ∉ pqKeys q := (pqGetPriority_none_iff q u).1 hq
      rw [relaxOne_absent d q u hq, if_neg hu]
      have hall2 : ∀ e ∈ q ++ [(u, d + 1)], e.2 ≤ d + 1 := by
        intro e he
        rcases List.mem_append.1 he with h1 | h2
        · exact hall e h1
        · simp only [List.mem_singleton] at h2
          subst h2
          exact Nat.le_refl _
      rw [ih (q ++ [(u, d + 1)]) hall2, List.append_assoc, List.singleton_append]
      congr 2
      apply dedupFstEx_congr
      intro x _
      simp only [pqKeys, List.map_append, List.map_cons, List.map_nil,
        List.mem_append, List.mem_cons]
      tauto

theorem bfsExpansions_firstVisit_cons {A : Type u} (v : A) (tr : List (BfsEvent A)) :
    bfsExpansions (BfsEvent.firstVisit v :: tr) = v :: bfsExpansions tr := rfl

theorem bfsExpansions_repeatVisit_cons {A : Type u} (v : A) (tr : List (BfsEvent A)) :
    bfsExpansions (BfsEvent.repeatVisit v :: tr) = bfsExpansions tr := rfl

theorem bfsExpansions_insert_append {A : Type u} (v : A) (l : List A)
    (tr : List (BfsEvent A)) :
    bfsExpansions ((l.map (BfsEvent.insert v)) ++ tr) = bfsExpansions tr := by
  show List.filterMap _ _ = _
  rw [List.filterMap_append, List.filterMap_map]
  have hnil : List.filterMap
      ((fun e => match e with
        | BfsEvent.firstVisit v => some v
        | _ => none) ∘ BfsEvent.insert v) l = [] := by
    rw [List.filterMap_eq_nil]
    intro a _
    rfl
  rw [hnil, List.nil_append]
  rfl

theorem pairwise_trivial {α : Type u} (l : List α) (R : α → α → Prop)
    (h : ∀ a b, R a b) : List.Pairwise R l := by
  induction l with
  | nil => exact List.Pairwise.nil
  | cons x xs ih => exact List.Pairwise.cons (fun y _ => h x y) ih

theorem dijkstraAux_step_expand [DecidableEq T] (moves : T → List (T × Nat))
    (isEnd : T → Bool) (f : Nat) (v : T) (d : Nat) (q' : List (T × Nat))
    (vis : List T) (q : List (T × Nat))
    (hpop : pqPopMin q = some ((v, d), q'))
    (hend : isEnd v = false) (hvis : v ∉ vis) :
    dijkstraAux moves isEnd (f + 1) q vis =
      (dijkstraAux moves isEnd f
        (relaxNeighbors d q' ((moves v).filter fun m => !decide (m.1 ∈ v :: vis)))
        (v :: vis)).map fun p => (p.1, (v, d) :: p.2) := by
  rw [dijkstraAux]
  simp only [hpop, hend, Bool.false_eq_true, if_false]
  rw [if_neg hvis]

theorem dijkstraAux_step_skip [DecidableEq T] (moves : T → List (T × Nat))
    (isEnd : T → Bool) (f : Nat) (v : T) (d : Nat) (q' : List (T × Nat))
    (vis : List T) (q : List (T × Nat))
    (hpop : pqPopMin q = some ((v, d), q'))
    (hend : isEnd v = false) (hvis : v ∈ vis) :
    dijkstraAux moves isEnd (f + 1) q vis = dijkstraAux moves isEnd f q' vis := by
  rw [dijkstraAux]
  simp only [hpop, hend, Bool.false_eq_true, if_false]
  rw [if_pos hvis]

theorem bfs_dijkstra_sim {T : Type} [DecidableEq T] (adj : T → List T) :
    ∀ (fuel : Nat) (q : List (T × Nat)) (vis : List T) res tr,
      List.Sorted (· ≤ ·) (q.map Prod.snd) →
      (∀ a ∈ q, ∀ b ∈ q, a.2 ≤ b.2 + 1) →
      breadth_first_search hashSetPairVisitor (bfsDistLifecycle adj) fuel q vis =
        some (res, tr) →
      res = none ∧
      dijkstraAux (unitMoves adj) (fun _ => false) fuel (dedupFstEx vis q) vis =
        some (none, bfsExpansions tr) := by
  intro fuel
  induction fuel with
  | zero =>
    intro q vis res tr _ _ h
    simp [breadth_first_search] at h
  | succ f ih =>
    intro q vis res tr hsort hI2 h
    cases q with
    | nil =>
      simp only [breadth_first_search, Option.some.injEq, Prod.mk.injEq] at h
      obtain ⟨hres, htr⟩ := h
      subst hres
      subst htr
      exact ⟨rfl, rfl⟩
    | cons e rest =>
      obtain ⟨t, d⟩ := e
      have hsort' : List.Sorted (· ≤ ·) (d :: rest.map Prod.snd) := hsort
      have hsc := List.sorted_cons.1 hsort'
      have hd_le : ∀ a ∈ rest, d ≤ a.2 := by
        intro a ha
        exact hsc.1 a.2 (List.mem_map_of_mem Prod.snd ha)
      have hle : ∀ a ∈ rest, a.2 ≤ d + 1 := by
        intro a ha
        exact hI2 a (List.mem_cons_of_mem _ ha) (t, d) (List.mem_cons_self _ _)
      by_cases htv : t ∈ vis
      · -- repeat dequeue: BFS skips, the priority queue never held this entry
        have hvis : hashSetPairVisitor.visit vis ((t, d) : T × Nat) = (true, vis) := by
          simp [hashSetPairVisitor, htv]
        rw [breadth_first_search, hvis] at h
        simp only [bfsDistLifecycle, Option.map_eq_some'] at h
        obtain ⟨⟨res1, tr1⟩, hp, hpe⟩ := h
        simp only [Prod.mk.injEq] at hpe
        obtain ⟨hres, htr⟩ := hpe
        subst hres
        subst htr
        have hIH := ih rest vis res1 tr1 hsc.2
          (fun a ha b hb => hI2 a (List.mem_cons_of_mem _ ha) b (List.mem_cons_of_mem _ hb))
          hp
        refine ⟨hIH.1, ?_⟩
        rw [bfsExpansions_repeatVisit_cons]
        have hded : dedupFstEx vis ((t, d) :: rest) = dedupFstEx vis rest := by
          rw [dedupFstEx, if_pos htv]
        rw [hded]
        exact dijkstraAux_mono (unitMoves adj) (fun _ => false) f _ _ _ hIH.2
      · -- first dequeue: both drivers expand t at distance d
        have hvis : hashSetPairVisitor.visit vis ((t, d) : T × Nat) = (false, t :: vis) := by
          simp [hashSetPairVisitor, htv]
        rw [breadth_first_search, hvis] at h
        simp only [bfsDistLifecycle, Option.map_eq_some'] at h
        obtain ⟨⟨res1, tr1⟩, hp, hpe⟩ := h
        simp only [Prod.mk.injEq] at hpe
        obtain ⟨hres, htr⟩ := hpe
        subst hres
        subst htr
        set adjNodes := (adj t).filter (fun u => !decide (u ∈ t :: vis)) with hadjNodes
        have hbfsadj : List.filter (fun a => !hashSetPairVisitor.has_visited (t :: vis) a)
            (List.map (fun u => (u, d + 1)) (adj t)) =
            adjNodes.map fun u => (u, d + 1) := by
          rw [List.filter_map]
          congr 1
        rw [hbfsadj] at hp
        rw [hbfsadj]
        have hnotin : ∀ u ∈ adjNodes, u ∉ t :: vis := by
          intro u hu
          have := (List.mem_filter.1 hu).2
          simpa using this
        -- invariants for the extended queue
        have hsort2 : List.Sorted (· ≤ ·)
            ((rest ++ adjNodes.map fun u => (u, d + 1)).map Prod.snd) := by
          rw [List.map_append]
          refine List.pairwise_append.2 ⟨hsc.2, ?_, ?_⟩
          · rw [List.map_map]
            exact List.pairwise_map.2 (pairwise_trivial _ _ fun a b => Nat.le_refl _)
          · intro a ha b hb
            rw [List.map_map] at hb
            obtain ⟨u, -, hbu⟩ := List.mem_map.1 hb
            obtain ⟨x, hx, hax⟩ := List.mem_map.1 ha
            subst hbu
            subst hax
            show x.2 ≤ d + 1
            exact hle x hx
        have hI22 : ∀ a ∈ rest ++ adjNodes.map (fun u => (u, d + 1)),
            ∀ b ∈ rest ++ adjNodes.map (fun u => (u, d + 1)), a.2 ≤ b.2 + 1 := by
          intro a ha b hb
          have hval : ∀ c ∈ adjNodes.map (fun u => (u, d + 1)), c.2 = d + 1 := by
            intro c hc
            obtain ⟨u, -, hcu⟩ := List.mem_map.1 hc
            subst hcu
            rfl
          rcases List.mem_append.1 ha with ha1 | ha2 <;>
            rcases List.mem_append.1 hb with hb1 | hb2
          · exact hI2 a (List.mem_cons_of_mem _ ha1) b (List.mem_cons_of_mem _ hb1)
          · have := hle a ha1
            rw [hval b hb2]
            omega
          · have := hd_le b hb1
            rw [hval a ha2]
            omega
          · rw [hval a ha2, hval b hb2]
            omega
        have hIH := ih (rest ++ adjNodes.map fun u => (u, d + 1)) (t :: vis) res1 tr1
          hsort2 hI22 hp
        refine ⟨hIH.1, ?_⟩
        -- unfold the priority driver one step
        have hdedcons : dedupFstEx vis ((t, d) :: rest) =
            (t, d) :: dedupFstEx (t :: vis) rest := by
          rw [dedupFstEx, if_neg htv]
        have hsubD : (dedupFstEx (t :: vis) rest).Sublist rest := dedupFstEx_sublist rest _
        have hsortD : List.Sorted (· ≤ ·)
            (((t, d) :: dedupFstEx (t :: vis) rest).map Prod.snd) := by
          have hsub2 : (((t, d) :: dedupFstEx (t :: vis) rest).map Prod.snd).Sublist
              (((t, d) :: rest).map Prod.snd) :=
            List.Sublist.map Prod.snd (hsubD.cons₂ (t, d))
          exact List.Pairwise.sublist hsub2 hsort
        have hpop := pqPopMin_of_sorted (t, d) (dedupFstEx (t :: vis) rest) hsortD
        rw [hdedcons, dijkstraAux_step_expand (unitMoves adj) (fun _ => false) f t d
          (dedupFstEx (t :: vis) rest) vis _ hpop rfl htv]
        have hdijadj : ((unitMoves adj t).filter fun m => !decide (m.1 ∈ t :: vis)) =
            adjNodes.map fun u => (u, 1) := by
          show List.filter _ ((adj t).map fun u => (u, 1)) = _
          rw [List.filter_map]
          congr 1
        rw [hdijadj]
        have hallD : ∀ e ∈ dedupFstEx (t :: vis) rest, e.2 ≤ d + 1 :=
          fun e he => hle e (hsubD.mem he)
        rw [relaxNeighbors_unit d adjNodes (dedupFstEx (t :: vis) rest) hallD]
        -- the relaxed queue is exactly the deduplicated extended BFS queue
        have hqeq : dedupFstEx (t :: vis) (rest ++ adjNodes.map fun u => (u, d + 1)) =
            dedupFstEx (t :: vis) rest ++
              dedupFstEx (pqKeys (dedupFstEx (t :: vis) rest))
                (adjNodes.map fun u => (u, d + 1)) := by
          rw [dedupFstEx_append]
          congr 1
          apply dedupFstEx_congr
          intro e he
          obtain ⟨u, hu, heu⟩ := List.mem_map.1 he
          subst heu
          simp only [List.mem_append]
          constructor
          · rintro (hm | hm)
            · exact hm
            · exact absurd hm (hnotin u hu)
          · exact Or.inl
        rw [← hqeq, hIH.2]
        rw [bfsExpansions_firstVisit_cons, bfsExpansions_insert_append]
        rfl

/-- C6: over any graph in which every generated edge costs 1 and no turn
penalty is charged, the priority-ordered (Dijkstra-style) driver of day 16
reproduces plain `breadth_first_search` exactly: started from the same state
at cost 0, it expands the same states at the same distances in the same
order (its expansion trace equals the states of the BFS `first_visit` trace),
and both drivers finish with the absent result. -/
theorem dijkstra_bfs_unit_cost_equiv {T : Type} [DecidableEq T] (adj : T → List T)
    (start : T) (fuel : Nat) (res : Option Unit) (tr : List (BfsEvent (T × Nat)))
    (h : breadth_first_search hashSetPairVisitor (bfsDistLifecycle adj) fuel
      [(start, 0)] [] = some (res, tr)) :
    res = none ∧
    dijkstraAux (unitMoves adj) (fun _ => false) fuel [(start, 0)] [] =
      some (none, bfsExpansions tr) := by
  have hsim := bfs_dijkstra_sim adj fuel [(start, 0)] [] res tr
    (by simp)
    (by
      intro a ha b hb
      rw [List.mem_singleton] at ha hb
      subst ha
      subst hb
      exact Nat.le_succ _)
    h
  have hded : dedupFstEx ([] : List T) [(start, 0)] = [(start, 0)] := by
    simp [dedupFstEx]
  rw [hded] at hsim
  exact hsim

/-- Concrete witness graph: 0 -> 1, 0 -> 2, 1 -> 2. -/
def adjWitness : Nat → List Nat :=
  fun n => if n = 0 then [1, 2] else if n = 1 then [2] else []

/-- C6 witness: on the concrete graph, the BFS run from (0, 0) finishes with
the absent result, and the priority driver reproduces its expansion trace. -/
theorem dijkstra_bfs_unit_cost_equiv_witness :
    breadth_first_search hashSetPairVisitor (bfsDistLifecycle adjWitness) 10
      [(0, 0)] [] =
      some (none, [BfsEvent.firstVisit (0, 0), BfsEvent.insert (0, 0) (1, 1),
        BfsEvent.insert (0, 0) (2, 1), BfsEvent.firstVisit (1, 1),
        BfsEvent.insert (1, 1) (2, 2), BfsEvent.firstVisit (2, 1),
        BfsEvent.repeatVisit (2, 2)]) ∧
    dijkstraAux (unitMoves adjWitness) (fun _ => false) 10 [(0, 0)] [] =
      some (none, bfsExpansions [BfsEvent.firstVisit (0, 0),
        BfsEvent.insert (0, 0) (1, 1), BfsEvent.insert (0, 0) (2, 1),
        BfsEvent.firstVisit (1, 1), BfsEvent.insert (1, 1) (2, 2),
        BfsEvent.firstVisit (2, 1), BfsEvent.repeatVisit (2, 2)]) :=
  ⟨by decide,
    (dijkstra_bfs_unit_cost_equiv adjWitness 0 10 none
      [BfsEvent.firstVisit (0, 0), BfsEvent.insert (0, 0) (1, 1),
        BfsEvent.insert (0, 0) (2, 1), BfsEvent.firstVisit (1, 1),
        BfsEvent.insert (1, 1) (2, 2), BfsEvent.firstVisit (2, 1),
        BfsEvent.repeatVisit (2, 2)] (by decide)).2⟩
